import Mathlib

/-!
Shallow embedding of the core of `danhajduk/scraper_app`
(observation-reconciliation engine: record store in
`src/storage/game_folders.py`, orchestrator in `src/scrape/orchestrator.py`,
parsers in `src/utils.py`, constants in `src/config.py`).

Modelling conventions:
* Python `datetime` values are modelled as epoch seconds (`Int`).
* `datetime.fromisoformat` is modelled on the canonical ISO-8601 UTC shape
  `YYYY-MM-DDTHH:MM:SS+00:00` — the only shape this system itself writes
  (via `_now_iso_z` / `_dt_to_iso_z`) and reads back after the code's
  `.replace("Z", "+00:00")`.  Strings not of this shape are unparseable.
* Python strings are Lean `String`s; `\s` is modelled as ASCII whitespace.
* Fallible operations return `Option` / `Except`; a store operation that may
  decline to write returns `Option` of the new record (`none` = no write).
-/

namespace Scraper

/-! ## Python-style string primitives -/

/-- ASCII whitespace, the characters Python's `str.strip()` and `\s` treat
as whitespace (restricted to ASCII). -/
def isPySpace (c : Char) : Bool :=
  c = ' ' || c = '\t' || c = '\n' || c = '\x0d' || c = '\x0b' || c = '\x0c'

def dropLeadingBy (p : Char → Bool) : List Char → List Char
  | [] => []
  | c :: rest => if p c then dropLeadingBy p rest else c :: rest

/-- Python `str.strip()` with a custom character predicate. -/
def pyStripBy (p : Char → Bool) (s : List Char) : List Char :=
  (dropLeadingBy p (dropLeadingBy p s).reverse).reverse

/-- Python `str.strip()` (whitespace on both ends). -/
def pyStrip (s : String) : String :=
  String.mk (pyStripBy isPySpace s.data)

/-- Python `str.lower()` (ASCII case fold). -/
def pyLower (s : String) : String :=
  String.mk (s.data.map Char.toLower)

/-- Python `str.startswith(pre)`. -/
def pyStartsWith (s pre : String) : Bool :=
  s.data.take pre.data.length = pre.data

/-- Python `s.replace("Z", "+00:00")` as used on ISO timestamps. -/
def replaceZChars : List Char → List Char
  | [] => []
  | c :: rest =>
    if c = 'Z' then '+' :: '0' :: '0' :: ':' :: '0' :: '0' :: replaceZChars rest
    else c :: replaceZChars rest

def pyReplaceZ (s : String) : String :=
  String.mk (replaceZChars s.data)

/-! ## Civil-calendar / epoch-seconds datetime model -/

/-- Days from civil date (proleptic Gregorian), days since 1970-01-01. -/
def daysFromCivil (y m d : Int) : Int :=
  let y' := if m ≤ 2 then y - 1 else y
  let era := Int.fdiv y' 400
  let yoe := y' - era * 400
  let mp : Int := if m > 2 then m - 3 else m + 9
  let doy := Int.fdiv (153 * mp + 2) 5 + d - 1
  let doe := yoe * 365 + Int.fdiv yoe 4 - Int.fdiv yoe 100 + doy
  era * 146097 + doe - 719468

/-- Civil date from days since 1970-01-01 (inverse of `daysFromCivil`). -/
def civilFromDays (z : Int) : Int × Int × Int :=
  let z' := z + 719468
  let era := Int.fdiv z' 146097
  let doe := z' - era * 146097
  let yoe := Int.fdiv (doe - Int.fdiv doe 1460 + Int.fdiv doe 36524 - Int.fdiv doe 146096) 365
  let y := yoe + era * 400
  let doy := doe - (365 * yoe + Int.fdiv yoe 4 - Int.fdiv yoe 100)
  let mp := Int.fdiv (5 * doy + 2) 153
  let d := doy - Int.fdiv (153 * mp + 2) 5 + 1
  let m := if mp < 10 then mp + 3 else mp - 9
  (if m ≤ 2 then y + 1 else y, m, d)

def epochOfCivil (y m d h mi s : Int) : Int :=
  daysFromCivil y m d * 86400 + h * 3600 + mi * 60 + s

def digitVal (c : Char) : Option Nat :=
  if c.isDigit then some (c.toNat - 48) else none

def twoDigits (a b : Char) : Option Nat := do
  let x ← digitVal a
  let y ← digitVal b
  pure (x * 10 + y)

def isLeap (y : Int) : Bool :=
  (Int.emod y 4 = 0 && Int.emod y 100 ≠ 0) || Int.emod y 400 = 0

def daysInMonth (y m : Int) : Int :=
  if m = 2 then (if isLeap y then 29 else 28)
  else if m = 4 ∨ m = 6 ∨ m = 9 ∨ m = 11 then 30
  else 31

/-- Model of `datetime.fromisoformat` (+ `.astimezone(utc)`) on the canonical
UTC shape `YYYY-MM-DDTHH:MM:SS+00:00`; returns UTC epoch seconds.  Any other
string is treated as unparseable (`none`). -/
def fromisoformatUtc (s : String) : Option Int :=
  match s.data with
  | [y1, y2, y3, y4, '-', mo1, mo2, '-', d1, d2, 'T',
     h1, h2, ':', mi1, mi2, ':', s1, s2, '+', '0', '0', ':', '0', '0'] => do
    let a ← twoDigits y1 y2
    let b ← twoDigits y3 y4
    let mo ← twoDigits mo1 mo2
    let d ← twoDigits d1 d2
    let h ← twoDigits h1 h2
    let mi ← twoDigits mi1 mi2
    let ss ← twoDigits s1 s2
    let y : Int := (a * 100 + b : Nat)
    if 1 ≤ mo ∧ mo ≤ 12 ∧ 1 ≤ d ∧ (d : Int) ≤ daysInMonth y mo ∧
       h ≤ 23 ∧ mi ≤ 59 ∧ ss ≤ 59 then
      pure (epochOfCivil y mo d h mi ss)
    else none
  | _ => none

/-- Parse a timestamp string the way the code does:
`datetime.fromisoformat(s.replace("Z", "+00:00"))`. -/
def parseTs (s : String) : Option Int :=
  fromisoformatUtc (pyReplaceZ s)

def pad2 (n : Nat) : String :=
  if n < 10 then "0" ++ toString n else toString n

def pad4 (n : Nat) : String :=
  if n < 10 then "000" ++ toString n
  else if n < 100 then "00" ++ toString n
  else if n < 1000 then "0" ++ toString n
  else toString n

/-- `dt.strftime("%Y-%m-%dT%H:%M:%SZ")` on a UTC datetime (epoch seconds). -/
def formatIsoZ (t : Int) : String :=
  let days := Int.fdiv t 86400
  let sod := (t - days * 86400).toNat
  let (y, m, d) := civilFromDays days
  pad4 y.toNat ++ "-" ++ pad2 m.toNat ++ "-" ++ pad2 d.toNat ++ "T" ++
    pad2 (sod / 3600) ++ ":" ++ pad2 (sod % 3600 / 60) ++ ":" ++ pad2 (sod % 60) ++ "Z"

/-! ## URL utilities (src/utils.py, src/sources.py) -/

/-- `normalize_url` — `url.strip()`. -/
def normalize_url (url : String) : String := pyStrip url

/-- Result of `urllib.parse.urlparse` restricted to the two fields the code
consumes. -/
structure UrlParts where
  netloc : String
  path : String
deriving DecidableEq, Repr

def splitSchemeSep : List Char → Option (List Char × List Char)
  | [] => none
  | ':' :: '/' :: '/' :: rest => some ([], rest)
  | c :: rest => (splitSchemeSep rest).map (fun p => (c :: p.1, p.2))

/-- Model of `urllib.parse.urlparse` on absolute `scheme://netloc/path`
URLs (netloc up to the first `/`, `?` or `#`; path up to `?` or `#`); a
string without `://` is all path, netloc empty — enough for the http(s)
URLs this program handles. -/
def urlparseLite (s : String) : UrlParts :=
  match splitSchemeSep s.data with
  | some (_, rest) =>
    let netloc := rest.takeWhile (fun c => ¬ (c = '/' || c = '?' || c = '#'))
    let after := rest.drop netloc.length
    let path := after.takeWhile (fun c => ¬ (c = '?' || c = '#'))
    ⟨String.mk netloc, String.mk path⟩
  | none => ⟨"", String.mk (s.data.takeWhile (fun c => ¬ (c = '?' || c = '#')))⟩

/-- `domain(url)` — `urlparse(url).netloc.lower()`. -/
def domain (url : String) : String := pyLower (urlparseLite url).netloc

def removePrefixStr (s pre : String) : String :=
  if pyStartsWith s pre then String.mk (s.data.drop pre.data.length) else s

/-- `normalize_domain(d)` — `(d or "").lower().removeprefix("www.")`. -/
def normalize_domain (d : String) : String := removePrefixStr (pyLower d) "www."

def isAsciiAlnum (c : Char) : Bool :=
  ('a' ≤ c && c ≤ 'z') || ('A' ≤ c && c ≤ 'Z') || ('0' ≤ c && c ≤ '9')

/-- Helper for `re.sub(r"[^a-zA-Z0-9]+", "_", s)`: `inRun` records whether
the previous character was part of a non-alphanumeric run already replaced
by `_`. -/
def subNonAlnumAux (inRun : Bool) : List Char → List Char
  | [] => []
  | c :: rest =>
    if isAsciiAlnum c then c :: subNonAlnumAux false rest
    else if inRun then subNonAlnumAux true rest
    else '_' :: subNonAlnumAux true rest

/-- `re.sub(r"[^a-zA-Z0-9]+", "_", s)`: collapse each maximal run of
non-alphanumeric characters into a single underscore. -/
def subNonAlnumRuns (l : List Char) : List Char :=
  subNonAlnumAux false l

/-- Python `str.split(sep)` for a single separator character. -/
def splitChar (sep : Char) : List Char → List (List Char)
  | [] => [[]]
  | c :: rest =>
    match splitChar sep rest with
    | r :: rs => if c = sep then [] :: r :: rs else (c :: r) :: rs
    | [] => [[]]

/-- `game_id_from_url(url)` — last path segment, non-alphanumeric runs
replaced by `_`, stripped of `_`, lowercased, defaulting to `"unknown"`. -/
def game_id_from_url (url : String) : String :=
  let u := urlparseLite url
  let segs := ((splitChar '/' u.path.data).map String.mk).filter (· ≠ "")
  let base := match segs.getLast? with
    | some s => s
    | none => u.netloc
  let base := pyLower (String.mk (pyStripBy (· = '_') (subNonAlnumRuns base.data)))
  if base = "" then "unknown" else base

def pyEndsWith (s suffix : String) : Bool :=
  List.isSuffixOf suffix.data s.data

/-- `SUPPORTED_EXTERNAL_DOMAINS` (src/config.py). -/
def SUPPORTED_EXTERNAL_DOMAINS : List String :=
  ["itch.io", "www.patreon.com", "patreon.com", "store.steampowered.com",
   "steamcommunity.com", "lewdgames.to", "discord.com", "subscribestar.adult"]

/-- `source_from_url(url)` (src/sources.py). -/
def source_from_url (url : String) : String :=
  let d := domain url
  if d = "" then "unknown"
  else
    let d := normalize_domain d
    if pyEndsWith d "fap-nation.com" then "fap-nation"
    else
      match SUPPORTED_EXTERNAL_DOMAINS.find?
          (fun supported =>
            let s := normalize_domain supported
            d = s || pyEndsWith d ("." ++ s)) with
      | some supported => normalize_domain supported
      | none => d

/-! ## Bracket-version parser (src/utils.py `split_bracket_version`) -/

/-- From a position just after `[`: the characters up to the first `]`, and
the remainder after that `]`; `none` if no `]` follows. -/
def takeToClose : List Char → Option (List Char × List Char)
  | [] => none
  | c :: rest =>
    if c = ']' then some ([], rest)
    else (takeToClose rest).map (fun p => (c :: p.1, p.2))

/-- Leftmost match of `\[([^\]]+)\]` (the regex used by `re.search`):
returns group 1 of the first position whose `[` is followed by a non-empty
run of non-`]` characters and then `]`. -/
def searchBracketGroup : List Char → Option (List Char)
  | [] => none
  | c :: rest =>
    if c = '[' then
      match takeToClose rest with
      | some (interior, _) =>
        if interior = [] then searchBracketGroup rest else some interior
      | none => searchBracketGroup rest
    else searchBracketGroup rest

/-- Streaming helper for `re.sub(r"\[[^\]]*\]", "", s)`.  State `none`:
outside any candidate match; state `some buf`: a `[` has been read and `buf`
(reversed) holds the interior so far.  Reaching `]` completes a match (the
buffered group is deleted); reaching the end of input with an open buffer
means the `[` had no closing `]`, so it was never part of a match and is
emitted verbatim (no later match is possible, as no `]` remains). -/
def removeBracketsAux : Option (List Char) → List Char → List Char
  | none, [] => []
  | some buf, [] => '[' :: buf.reverse
  | none, c :: rest =>
    if c = '[' then removeBracketsAux (some []) rest
    else c :: removeBracketsAux none rest
  | some buf, c :: rest =>
    if c = ']' then removeBracketsAux none rest
    else removeBracketsAux (some (c :: buf)) rest

/-- `re.sub(r"\[[^\]]*\]", "", s)`: delete every (leftmost, non-overlapping)
bracket group, empty interiors included. -/
def removeBrackets (l : List Char) : List Char :=
  removeBracketsAux none l

/-- Helper for `re.sub(r"\s+", " ", s)`; `inRun` records whether the
previous character was whitespace already replaced by a single space. -/
def collapseWsAux (inRun : Bool) : List Char → List Char
  | [] => []
  | c :: rest =>
    if isPySpace c then
      if inRun then collapseWsAux true rest else ' ' :: collapseWsAux true rest
    else c :: collapseWsAux false rest

/-- `re.sub(r"\s+", " ", s)`: collapse each whitespace run to one space. -/
def collapseWs (l : List Char) : List Char :=
  collapseWsAux false l

/-- The characters of Python `strip(" -–—\t ")` in the clean-title step. -/
def isSepChar (c : Char) : Bool :=
  c = ' ' || c = '-' || c = '–' || c = '—' || c = '\t'

/-- `split_bracket_version(title)` (src/utils.py): version is the stripped
interior of the first `[...]` with non-empty interior; clean title is the
input with all `[...]` groups removed, whitespace runs collapsed, and
separator characters stripped from both ends. -/
def split_bracket_version (title : String) : String × String :=
  let version :=
    match searchBracketGroup title.data with
    | some g => pyStrip (String.mk g)
    | none => ""
  let cleaned :=
    String.mk (pyStripBy isSepChar (collapseWs (removeBrackets title.data)))
  (version, cleaned)

/-! ## `src/config.py` constants -/

def RECENT_DAYS : Int := 21

def ABANDONED_DAYS : Int := 365

def DISCOVERED_PRUNE_DAYS : Int := 10

/-! ## `classify_recency` (src/scrape/orchestrator.py) -/

/-- `classify_recency(updated_iso)`, with `now` (the value of `_now_utc()`,
epoch seconds) passed explicitly.  Total: the Python parse failure is the
`none` branch (the `except` clause), so the function never throws. -/
def classify_recency (updated_iso : String) (now : Int) : String :=
  match parseTs updated_iso with
  | none => "❌ Old"
  | some dt =>
    let age_days := Int.fdiv (now - dt) 86400
    if age_days ≤ RECENT_DAYS then "✅ Recent"
    else if age_days ≥ ABANDONED_DAYS then "⚠️ Abandoned"
    else "❌ Old"

/-! ## Record store (src/storage/game_folders.py)

The `url.json` record is modelled as a typed structure.  The Python code
defends against malformed JSON (`isinstance` checks) by coercing junk shapes
to their defaults (`{}`/`[]`/`""`); the model carries the coerced value:
non-dict `manual`/`observations` are the empty container, a non-dict
`latest` is `none`, non-dict discovered entries are dropped, and
`str(...)`-coerced scalar fields are the resulting strings.  On-disk writes
become returned records (`none` = the operation performed no write). -/

structure DiscEntry where
  url : String
  source : String
  first_seen : String
  last_seen : String
deriving DecidableEq, Repr

structure Obs where
  version : String
  last_update_iso : String
deriving DecidableEq, Repr

structure Latest where
  source : String
  version : String
  last_update_iso : String
  computed_at : String
deriving DecidableEq, Repr

/-- The empty dict `{}` stored under `"latest"`. -/
def Latest.empty : Latest := ⟨"", "", "", ""⟩

structure Manual where
  links : List String
  source_file : String
deriving DecidableEq, Repr

structure UrlRecord where
  game_id : String
  status : String
  manual : Manual
  discovered : List DiscEntry
  /-- insertion-ordered dict; a `none` value is a non-dict junk slot. -/
  observations : List (String × Option Obs)
  /-- `none` = key absent or value not a dict. -/
  latest : Option Latest
  updated_at : String
deriving DecidableEq, Repr

/-- Lexicographic comparison of code-point lists (Python `str <`). -/
def listLtChars : List Char → List Char → Bool
  | [], [] => false
  | [], _ :: _ => true
  | _ :: _, [] => false
  | a :: as, b :: bs =>
    if a.toNat < b.toNat then true
    else if b.toNat < a.toNat then false
    else listLtChars as bs

/-- Python `a < b` on strings: lexicographic by code point. -/
def pyStrLt (a b : String) : Bool := listLtChars a.data b.data

/-- Insertion-ordered dict lookup (`d[k]` / `d.get(k)`). -/
def alGet {V : Type} : List (String × V) → String → Option V
  | [], _ => none
  | (k, v) :: rest, key => if k = key then some v else alGet rest key

/-- Insertion-ordered dict assignment (`d[k] = v`): updates in place,
else appends. -/
def alInsert {V : Type} : List (String × V) → String → V → List (String × V)
  | [], key, v => [(key, v)]
  | (k, w) :: rest, key, v =>
    if k = key then (k, v) :: rest else (k, w) :: alInsert rest key v

/-- `_is_real_url(u)` — `(u or "").strip().lower().startswith(http(s)://)`. -/
def _is_real_url (u : String) : Bool :=
  let u := pyLower (pyStrip u)
  pyStartsWith u "http://" || pyStartsWith u "https://"

/-- Python `str.splitlines()` restricted to the ASCII line breaks
`\n`, `\r\n`, `\r` (no trailing empty line). -/
def splitlinesAux (cur : List Char) : List Char → List (List Char)
  | [] => if cur.isEmpty then [] else [cur.reverse]
  | '\x0d' :: '\n' :: rest => cur.reverse :: splitlinesAux [] rest
  | '\n' :: rest => cur.reverse :: splitlinesAux [] rest
  | '\x0d' :: rest => cur.reverse :: splitlinesAux [] rest
  | c :: rest => splitlinesAux (c :: cur) rest

def pySplitlines (s : String) : List String :=
  (splitlinesAux [] s.data).map String.mk

/-- The de-dupe-preserving-order loop (`seen` set + append). -/
def dedupKeepFirst (seen : List String) : List String → List String
  | [] => []
  | u :: rest =>
    if seen.contains u then dedupKeepFirst seen rest
    else u :: dedupKeepFirst (u :: seen) rest

/-- The line loop of `_bootstrap_from_txt`: strip each line, skip blanks and
`#` comments, collect normalized http(s) URLs in order. -/
def bootstrapLinksLoop : List String → List String
  | [] => []
  | line :: rest =>
    let line := pyStrip line
    if line = "" || pyStartsWith line "#" then bootstrapLinksLoop rest
    else
      let url := normalize_url line
      if url ≠ "" && _is_real_url url then url :: bootstrapLinksLoop rest
      else bootstrapLinksLoop rest

/-- `_bootstrap_from_txt` (src/storage/game_folders.py): parse a legacy
`url.txt` (`raw`) into a fresh record and persist it.  `now` is the value
of `_now_iso_z()`.  The returned record is the one written to disk. -/
def _bootstrap_from_txt (raw : String) (status : String) (now : String) : UrlRecord :=
  let links := bootstrapLinksLoop (pySplitlines raw)
  let links_dedup := dedupKeepFirst [] links
  let gid := match links_dedup with
    | [] => ""
    | u :: _ => game_id_from_url u
  { game_id := gid
    status := status
    manual := { links := links_dedup, source_file := "url.txt" }
    discovered := []
    observations := []
    latest := some Latest.empty
    updated_at := now }

/-- `read_observation` (src/storage/game_folders.py): `(version,
last_update_iso)` for `observations[source]`, `("", "")` when the record,
the `observations` dict or the source slot is missing or malformed. -/
def read_observation (rec : Option UrlRecord) (source : String) : String × String :=
  match rec with
  | none => ("", "")
  | some data =>
    match alGet data.observations source with
    | none => ("", "")
    | some none => ("", "")
    | some (some entry) => (entry.version, entry.last_update_iso)

/-- `manual_set` — `{normalize_url(str(u)) for u in manual_links if
normalize_url(str(u))}` (membership-tested only, so modelled as a list). -/
def manualSet (data : UrlRecord) : List String :=
  (data.manual.links.map (fun u => normalize_url u)).filter (· ≠ "")

/-- The `idx`-building loop of `merge_discovered_links`: normalize each
existing discovered entry's URL, drop empty URLs, last duplicate wins while
keeping first position. -/
def buildIdxStep (idx : List (String × DiscEntry)) (entry : DiscEntry) :
    List (String × DiscEntry) :=
  let u := normalize_url entry.url
  if u = "" then idx else alInsert idx u { entry with url := u }

def buildIdx (discovered : List DiscEntry) : List (String × DiscEntry) :=
  discovered.foldl buildIdxStep []

/-- The `incoming` loop of `merge_discovered_links`: normalize, drop
empties, de-dupe preserving first-seen order. -/
def collectIncoming (seen : List String) : List String → List String
  | [] => []
  | raw :: rest =>
    let u := normalize_url raw
    if u = "" || seen.contains u then collectIncoming seen rest
    else u :: collectIncoming (u :: seen) rest

/-- One step of the merge loop: skip manual URLs; bump `last_seen` (and fill
an unset `source`) for known URLs; insert a fresh ledger entry otherwise.
The Bool is the `changed` flag. -/
def mergeStep (manual_set : List String) (source now_iso : String)
    (st : List (String × DiscEntry) × Bool) (u : String) :
    List (String × DiscEntry) × Bool :=
  if manual_set.contains u then st
  else
    match alGet st.1 u with
    | some e =>
      let e := { e with
        last_seen := now_iso,
        source := if source ≠ "" && e.source = "" then source else e.source }
      (alInsert st.1 u e, true)
    | none =>
      (alInsert st.1 u ⟨u, source, now_iso, now_iso⟩, true)

/-- The prune loop: keep entries whose `last_seen` fails to parse
(fail-safe) or parses to `≥ cutoff`; dropping an entry sets `changed`. -/
def pruneStep (cutoff : Int) (st : List DiscEntry × Bool) (entry : DiscEntry) :
    List DiscEntry × Bool :=
  match parseTs entry.last_seen with
  | none => (st.1 ++ [entry], st.2)
  | some dt => if dt ≥ cutoff then (st.1 ++ [entry], st.2) else (st.1, true)

/-- Stable insertion into a list sorted ascending by `url` (the element
goes after existing equal keys, as in Python's stable `list.sort`). -/
def insertByUrl (e : DiscEntry) : List DiscEntry → List DiscEntry
  | [] => [e]
  | f :: rest => if pyStrLt f.url e.url then f :: insertByUrl e rest else e :: f :: rest

/-- `kept.sort(key=lambda e: str(e.get("url", "")))` — stable sort by URL. -/
def sortByUrl : List DiscEntry → List DiscEntry
  | [] => []
  | e :: rest => insertByUrl e (sortByUrl rest)

/-- `merge_discovered_links` (src/storage/game_folders.py) on a loaded
record.  `now_iso` is `_now_iso_z()`; `nowSec` is the epoch-seconds value of
the `datetime.now(timezone.utc)` used for the prune cutoff.  Returns `none`
when `changed` stayed false (no write); the missing-`url.json` early return
is the caller never reaching this point. -/
def merge_discovered_links (data : UrlRecord) (discovered_links : List String)
    (source : String) (now_iso : String) (nowSec : Int) : Option UrlRecord :=
  let manual_set := manualSet data
  let idx := buildIdx data.discovered
  let incoming := collectIncoming [] discovered_links
  let merged := incoming.foldl (mergeStep manual_set source now_iso) (idx, false)
  let cutoff := nowSec - DISCOVERED_PRUNE_DAYS * 86400
  let pruned := (merged.1.map Prod.snd).foldl (pruneStep cutoff) ([], merged.2)
  let kept := sortByUrl pruned.1
  if pruned.2 then
    some { data with discovered := kept, updated_at := now_iso }
  else none

/-- One step of the `latest`-selection scan in `update_observations_latest`:
skip non-dict slots and empty timestamps, take the slot when it is the first
non-empty one or strictly greater than the best so far (`iso > best_iso`).
The accumulator is `(best_source, best_version, best_iso)`. -/
def bestStep (b : String × String × String) (p : String × Option Obs) :
    String × String × String :=
  match p.2 with
  | none => b
  | some obs =>
    let iso := obs.last_update_iso
    let ver := obs.version
    if iso = "" then b
    else if b.2.2 = "" || pyStrLt b.2.2 iso then (p.1, ver, iso) else b

/-- `update_observations_latest` (src/storage/game_folders.py) on a loaded
record: write `observations[source]`, rescan all slots for the greatest
non-empty `last_update_iso` (string comparison, first-seen wins ties), set
`latest` accordingly — keeping a pre-existing dict `latest` untouched when
no slot has a timestamp — and refresh `updated_at`.  Always writes. -/
def update_observations_latest (data : UrlRecord)
    (source version last_update_iso now_iso : String) : UrlRecord :=
  let observations := alInsert data.observations source (some ⟨version, last_update_iso⟩)
  let best := observations.foldl bestStep ("", "", "")
  let latest : Option Latest :=
    if best.2.2 ≠ "" then some ⟨best.1, best.2.1, best.2.2, now_iso⟩
    else match data.latest with
      | some l => some l
      | none => some Latest.empty
  { data with observations := observations, latest := latest, updated_at := now_iso }

/-! ## Pretty-date helpers (src/utils.py) -/

def monthName : Int → String
  | 1 => "January"
  | 2 => "February"
  | 3 => "March"
  | 4 => "April"
  | 5 => "May"
  | 6 => "June"
  | 7 => "July"
  | 8 => "August"
  | 9 => "September"
  | 10 => "October"
  | 11 => "November"
  | 12 => "December"
  | _ => ""

/-- `iso_to_pretty_date(iso)` — `"2026-01-01T13:41:27Z" -> "January 1, 2026"`
(`strftime("%B %-d, %Y")` on the parsed UTC datetime, `"N/A"` on blank or
unparseable input). -/
def iso_to_pretty_date (iso : String) : String :=
  let iso := pyStrip iso
  if iso = "" then "N/A"
  else
    match parseTs iso with
    | none => "N/A"
    | some t =>
      let c := civilFromDays (Int.fdiv t 86400)
      monthName c.2.1 ++ " " ++ toString c.2.2.toNat ++ ", " ++ toString c.1.toNat

def monthTable : List (Int × String) :=
  [(1, "January"), (2, "February"), (3, "March"), (4, "April"), (5, "May"),
   (6, "June"), (7, "July"), (8, "August"), (9, "September"),
   (10, "October"), (11, "November"), (12, "December")]

/-- `%B`: match a full month name (case-insensitively, as `strptime` does),
returning the month number and the rest of the input. -/
def matchMonthName : List (Int × String) → List Char → Option (Int × List Char)
  | [], _ => none
  | (m, name) :: rest, s =>
    if pyLower (String.mk (s.take name.data.length)) = pyLower name then
      some (m, s.drop name.data.length)
    else matchMonthName rest s

/-- `%d`: one or two digits. -/
def parseDay : List Char → Option (Nat × List Char)
  | [] => none
  | c1 :: rest =>
    match digitVal c1 with
    | none => none
    | some a =>
      match rest with
      | c2 :: rest2 =>
        match digitVal c2 with
        | some b => some (a * 10 + b, rest2)
        | none => some (a, c2 :: rest2)
      | [] => some (a, [])

/-- `%Y` at end of input: exactly four digits. -/
def parseYear4 : List Char → Option Nat
  | [a, b, c, d] => do
    let w ← digitVal a
    let x ← digitVal b
    let y ← digitVal c
    let z ← digitVal d
    pure (w * 1000 + x * 100 + y * 10 + z)
  | _ => none

/-- `pretty_date_to_dt(s)` (src/utils.py): of the three formats tried, only
`"%B %d, %Y"` is valid (`%-d` / `%#d` raise inside `strptime` and are
skipped), so this models `strptime(s, "%B %d, %Y")` at UTC midnight on
canonical `"Month D, YYYY"` inputs; anything else is `none`. -/
def pretty_date_to_dt (s : String) : Option Int :=
  let s := pyStrip s
  if s = "" || s = "N/A" then none
  else
    match matchMonthName monthTable s.data with
    | none => none
    | some (m, rest) =>
      match rest with
      | ' ' :: rest2 =>
        match parseDay rest2 with
        | none => none
        | some (d, rest3) =>
          match rest3 with
          | ',' :: ' ' :: rest4 =>
            match parseYear4 rest4 with
            | none => none
            | some y =>
              if 1 ≤ d ∧ (d : Int) ≤ daysInMonth y m then
                some (daysFromCivil y m d * 86400)
              else none
          | _ => none
      | _ => none

/-- `_dt_to_iso_z(dt)` (src/scrape/orchestrator.py). -/
def _dt_to_iso_z (t : Int) : String := formatIsoZ t

/-! ## Orchestrator (src/scrape/orchestrator.py) -/

structure ScrapeItem where
  url : String
  forced_game_id : String := ""
  folder_path : Option String := none
  folder_status : Option String := none
deriving DecidableEq, Repr

/-- The 5-tuple `(raw_title, updated_utc_iso, pretty_date, external_links,
error_message)` returned by `scrape_one` — the Page Extraction Adapter is an
external collaborator, so a run is parametrised by a `fetch` function with
this result type (the cookie is absorbed into `fetch`). -/
structure FetchResult where
  raw_title : String
  updated_iso : String
  pretty : String
  links : List String
  err : String
deriving DecidableEq, Repr

/-- `GameInfo` (src/models.py). -/
structure GameInfo where
  url : String
  source : String
  game_id : String
  title : String
  raw_title : String
  version : String
  last_update : String
  updated_utc_iso : String
  is_recent : String
  change_status : String
  external_links : String
deriving DecidableEq, Repr

/-- `"|".join(links)`. -/
def joinPipe : List String → String
  | [] => ""
  | [x] => x
  | x :: rest => x ++ "|" ++ joinPipe rest

/-- The two folder-scoped persistence calls issued on a successful fetch
(each wrapped in a swallow-all `except` in the source, so they never affect
the emitted results; recorded here as a trace). -/
inductive StorageCall where
  | mergeLinks (folder_path : String) (links : List String) (source : String)
  | updateObs (folder_path : String) (source version last_update_iso : String)
deriving DecidableEq, Repr

/-- One iteration of the `scrape_all` loop (src/scrape/orchestrator.py,
lines 129–211).  `change_status_local` is the Python local `change_status`
as bound (or not) by earlier iterations; the function returns the storage
calls issued before any exception, and either the uncaught Python exception
or the appended `GameInfo` plus the updated local.

The source binds `change_status` only in the `if err:` branch and then
immediately reads the never-assigned name `prev_row`, raising `NameError`;
in the success path it reaches `GameInfo(..., change_status=change_status)`
with the local still unbound unless a previous iteration bound it. -/
def scrapeStep (fetch : String → FetchResult) (now : Int)
    (change_status_local : Option String) (item : ScrapeItem) :
    List StorageCall × Except String (GameInfo × Option String) :=
  let url := normalize_url item.url
  let src := source_from_url url
  let r := fetch url
  let vt := split_bracket_version r.raw_title
  let version := vt.1
  let clean_title := vt.2
  let updated_iso :=
    if r.updated_iso = "" && r.pretty ≠ "" then
      match pretty_date_to_dt r.pretty with
      | some dt => _dt_to_iso_z dt
      | none => r.updated_iso
    else r.updated_iso
  if r.err ≠ "" then
    ([], Except.error "NameError: name prev_row is not defined")
  else
    let pretty := if updated_iso ≠ "" then iso_to_pretty_date updated_iso else r.pretty
    let is_recent := if updated_iso ≠ "" then classify_recency updated_iso now else "❌ Old"
    let pretty := if pretty = "" then "N/A" else pretty
    let calls :=
      match item.folder_path with
      | some fp =>
        [StorageCall.mergeLinks fp r.links src,
         StorageCall.updateObs fp src version updated_iso]
      | none => []
    match change_status_local with
    | none =>
      (calls, Except.error "UnboundLocalError: local variable change_status referenced before assignment")
    | some cs =>
      (calls, Except.ok
        ({ url := url
           source := src
           game_id := if item.forced_game_id ≠ "" then item.forced_game_id else game_id_from_url url
           title := if clean_title ≠ "" then clean_title else "N/A"
           raw_title := if r.raw_title ≠ "" then r.raw_title else "N/A"
           version := version
           last_update := pretty
           updated_utc_iso := updated_iso
           is_recent := is_recent
           change_status := cs
           external_links := joinPipe r.links }, some cs))

def scrapeAllAux (fetch : String → FetchResult) (now : Int) :
    Option String → List ScrapeItem → List StorageCall × Except String (List GameInfo)
  | _, [] => ([], Except.ok [])
  | cs, item :: rest =>
    let step := scrapeStep fetch now cs item
    match step.2 with
    | Except.error e => (step.1, Except.error e)
    | Except.ok (info, cs') =>
      let tail := scrapeAllAux fetch now cs' rest
      (step.1 ++ tail.1, tail.2.map (fun l => info :: l))

/-- `scrape_all` (src/scrape/orchestrator.py): sequential loop over the
items, threading the Python local `change_status` (initially unbound) and
collecting the storage calls issued; an uncaught exception aborts the run.
Progress callbacks, the legacy tuple coercion and the `print_updates_only`
placeholder do not affect the results and are not modelled. -/
def scrape_all (fetch : String → FetchResult) (now : Int) (items : List ScrapeItem) :
    List StorageCall × Except String (List GameInfo) :=
  scrapeAllAux fetch now none items

/-- Whether the prune loop keeps an entry: unparseable `last_seen` is kept
(fail safe), parseable is kept iff not strictly older than the cutoff. -/
def pruneKeep (cutoff : Int) (entry : DiscEntry) : Bool :=
  match parseTs entry.last_seen with
  | none => true
  | some dt => decide (dt ≥ cutoff)

/-- Well-formedness of the `idx` association during a merge relative to the
manual set `m`: each key mirrors its entry's URL, URLs are normalized,
non-empty and not manual, and keys are unique. -/
def IdxOk (m : List String) (idx : List (String × DiscEntry)) : Prop :=
  (∀ kv ∈ idx, kv.1 = kv.2.url ∧ normalize_url kv.2.url = kv.2.url ∧
    kv.2.url ≠ "" ∧ m.contains kv.2.url = false) ∧
  (idx.map Prod.fst).Nodup

/-! ## Invariant predicates, spec-side views, and claim-specific records -/

/-- Spec-side: the non-empty `last_update_iso` timestamps among the
observation slots, in order (non-dict slots have none). -/
def nonemptyIsos (obs : List (String × Option Obs)) : List String :=
  obs.filterMap (fun p =>
    match p.2 with
    | some o => if o.last_update_iso = "" then none else some o.last_update_iso
    | none => none)

/-- Invariant of the `bestStep` fold: either nothing non-empty has been seen
and the best timestamp is still `""`, or the best timestamp is one of the
seen timestamps and no seen timestamp is strictly greater. -/
def BestOk (seen : List String) (b : String × String × String) : Prop :=
  (b.2.2 = "" ∧ seen = []) ∨
  (b.2.2 ∈ seen ∧ ∀ x ∈ seen, pyStrLt b.2.2 x = false)

/-- The fetch used for the C1 failing input: a successful scrape. -/
def c1fetch : String → FetchResult := fun _ =>
  ⟨"Best Game [v1.2]", "2024-06-01T00:00:00Z", "", [], ""⟩

/-- The fetch used for the C2 failing input: an error signal. -/
def c2fetch : String → FetchResult := fun _ => ⟨"", "", "", [], "boom"⟩

/-- The record for the C3 counterexample and witness. -/
def c3rec : UrlRecord :=
  { game_id := "g", status := "active",
    manual := { links := [], source_file := "" },
    discovered := [], observations := [], latest := some Latest.empty,
    updated_at := "2024-01-01T00:00:00Z" }

/-- The record written by the first C3 merge call. -/
def c3rec1 : UrlRecord :=
  { c3rec with
    discovered := [⟨"https://a.com/x", "s", "2024-06-01T00:00:00Z", "2024-06-01T00:00:00Z"⟩],
    updated_at := "2024-06-01T00:00:00Z" }

/-- The record written by the second (identical) C3 merge call. -/
def c3rec2 : UrlRecord :=
  { c3rec with
    discovered := [⟨"https://a.com/x", "s", "2024-06-01T00:00:00Z", "2024-06-01T00:00:01Z"⟩],
    updated_at := "2024-06-01T00:00:01Z" }

/-- The record for the C4 counterexample: a stale `latest` left over from an
earlier scan, about to be orphaned by overwriting the only non-empty slot. -/
def c4rec : UrlRecord :=
  { game_id := "g", status := "active",
    manual := { links := [], source_file := "" },
    discovered := [],
    observations := [("A", some ⟨"1.0", "2024-01-01T00:00:00Z"⟩)],
    latest := some ⟨"A", "1.0", "2024-01-01T00:00:00Z", "C"⟩,
    updated_at := "C" }

/-- The record for the C4 witness. -/
def c4wrec : UrlRecord :=
  { game_id := "g", status := "active",
    manual := { links := [], source_file := "" },
    discovered := [],
    observations := [("A", some ⟨"1", "2024-01-01T00:00:00Z"⟩)],
    latest := some Latest.empty,
    updated_at := "C" }

/-- The record for the C6 witness: one stale parseable entry, one entry with
unparseable `last_seen`. -/
def c6rec : UrlRecord :=
  { game_id := "g", status := "active",
    manual := { links := [], source_file := "" },
    discovered := [⟨"https://old.com/a", "s", "2024-01-01T00:00:00Z", "2024-01-01T00:00:00Z"⟩,
                   ⟨"https://keep.com/b", "s", "x", "garbage"⟩],
    observations := [], latest := some Latest.empty, updated_at := "C" }

/-- The record written by the C6 witness call: the stale entry is pruned,
the unparseable one survives. -/
def c6out : UrlRecord :=
  { c6rec with
    discovered := [⟨"https://keep.com/b", "s", "x", "garbage"⟩],
    updated_at := "2024-06-01T00:00:00Z" }

/-- Record well-formedness maintained by the store's write operations:
ledger URLs are normalized, non-empty, unique, and disjoint from the manual
set. -/
def RecordOk (r : UrlRecord) : Prop :=
  (∀ e ∈ r.discovered, normalize_url e.url = e.url ∧ e.url ≠ "" ∧
    (manualSet r).contains e.url = false) ∧
  ((r.discovered.map (fun e => e.url)).Nodup)

/-- Record states reachable through the store's write operations as invoked
by the reconciliation pipeline: created by legacy bootstrap, then rewritten
by link merges and observation updates. -/
inductive Reachable : UrlRecord → Prop where
  | bootstrap (raw status now : String) : Reachable (_bootstrap_from_txt raw status now)
  | merge {data r : UrlRecord} (links : List String) (source now_iso : String)
      (nowSec : Int) : Reachable data →
      merge_discovered_links data links source now_iso nowSec = some r → Reachable r
  | update {data : UrlRecord} (source version last_update_iso now_iso : String) :
      Reachable data →
      Reachable (update_observations_latest data source version last_update_iso now_iso)

/-- The C5 witness state: a bootstrap from one manual link followed by a
merge whose incoming list contains that manual link and one external one. -/
def c5out : UrlRecord :=
  { game_id := "x", status := "active",
    manual := { links := ["https://m.com/x"], source_file := "url.txt" },
    discovered := [⟨"https://ext.com/y", "s", "2024-06-01T00:00:00Z", "2024-06-01T00:00:00Z"⟩],
    observations := [], latest := some Latest.empty,
    updated_at := "2024-06-01T00:00:00Z" }

/-! ## Spec-side definitions for the legacy bootstrap -/

/-- Spec-side: the URL a legacy line contributes, if any — blank and
`#`-comment lines contribute nothing, and only normalized http(s) URLs are
kept. -/
def keptUrl (line : String) : Option String :=
  if pyStrip line = "" || pyStartsWith (pyStrip line) "#" then none
  else if normalize_url (pyStrip line) ≠ "" && _is_real_url (normalize_url (pyStrip line)) then
    some (normalize_url (pyStrip line))
  else none

/-- Spec-side order-preserving de-duplication: keep each element's first
occurrence, dropping all later duplicates. -/
def firstOccDedup : List String → List String
  | [] => []
  | u :: rest => u :: (firstOccDedup rest).filter (fun v => v ≠ u)

/-! ## Spec-side definitions for the title/version parser -/

/-- Streaming enumeration of the bracket-delimited groups of a string, in
order, leftmost and non-overlapping.  State `none`: outside any group; state
`some buf`: a `[` has been read and `buf` (reversed) is the interior so far;
a `]` completes the group, and a `[` with no later `]` delimits nothing. -/
def bracketGroupsAux : Option (List Char) → List Char → List (List Char)
  | none, [] => []
  | some _, [] => []
  | none, c :: rest =>
    if c = '[' then bracketGroupsAux (some []) rest
    else bracketGroupsAux none rest
  | some buf, c :: rest =>
    if c = ']' then buf.reverse :: bracketGroupsAux none rest
    else bracketGroupsAux (some (c :: buf)) rest

/-- The interiors of all bracket-delimited groups of the string, in order. -/
def bracketGroups (l : List Char) : List (List Char) :=
  bracketGroupsAux none l

/-- Spec-side version per the claim's words: the trimmed interior of the
FIRST bracket-delimited group — empty interiors included — or `""` when the
string has no bracket-delimited group at all. -/
def spec_version (title : String) : String :=
  match (bracketGroups title.data).head? with
  | some g => pyStrip (String.mk g)
  | none => ""

/-- Amended spec-side version: the trimmed interior of the first
bracket-delimited group with a NON-EMPTY interior (`[]` groups are skipped),
or `""` when there is none. -/
def spec_version_nonempty (title : String) : String :=
  match ((bracketGroups title.data).filter (fun g => !g.isEmpty)).head? with
  | some g => pyStrip (String.mk g)
  | none => ""

/-- Spec-side clean title: the input with every bracket-delimited group
removed, whitespace runs collapsed to single spaces, leading/trailing
separator punctuation and whitespace trimmed. -/
def spec_clean_title (title : String) : String :=
  String.mk (pyStripBy isSepChar (collapseWs (removeBrackets title.data)))

theorem dropLeadingBy_length_le (p : Char → Bool) :
    ∀ l : List Char, (dropLeadingBy p l).length ≤ l.length
  | [] => by simp [dropLeadingBy]
  | c :: rest => by
    simp only [dropLeadingBy]
    split
    · exact Nat.le_succ_of_le (dropLeadingBy_length_le p rest)
    · exact Nat.le_refl _

theorem takeToClose_length :
    ∀ {l a b : List Char}, takeToClose l = some (a, b) → b.length < l.length := by
  intro l
  induction l with
  | nil => intro a b h; simp [takeToClose] at h
  | cons c rest ih =>
    intro a b h
    simp only [takeToClose] at h
    split at h
    · cases h; simp
    · match hrec : takeToClose rest with
      | none => rw [hrec] at h; simp at h
      | some p =>
        rw [hrec] at h
        simp at h
        have := ih (a := p.1) (b := p.2) (by rw [hrec])
        have hb : b = p.2 := by rw [← h.2]
        rw [hb]; exact Nat.lt_succ_of_lt this

/-! ## Supporting lemmas: stripping is idempotent -/

theorem dropLeadingBy_idem (p : Char → Bool) :
    ∀ l : List Char, dropLeadingBy p (dropLeadingBy p l) = dropLeadingBy p l
  | [] => by simp [dropLeadingBy]
  | c :: rest => by
    by_cases h : p c
    · simp only [dropLeadingBy, h, if_true]
      exact dropLeadingBy_idem p rest
    · simp only [dropLeadingBy, h, if_false, Bool.false_eq_true]

theorem dropLeadingBy_head_false (p : Char → Bool) :
    ∀ l : List Char, dropLeadingBy p l = [] ∨
      ∃ c t, dropLeadingBy p l = c :: t ∧ p c = false
  | [] => Or.inl rfl
  | c :: rest => by
    by_cases h : p c
    · simp only [dropLeadingBy, h, if_true]
      exact dropLeadingBy_head_false p rest
    · exact Or.inr ⟨c, rest, by simp [dropLeadingBy, h], by simp [h]⟩

theorem dropLeadingBy_suffix (p : Char → Bool) :
    ∀ l : List Char, (dropLeadingBy p l) <:+ l
  | [] => List.suffix_refl _
  | c :: rest => by
    by_cases h : p c
    · simp only [dropLeadingBy, h, if_true]
      exact (dropLeadingBy_suffix p rest).trans (List.suffix_cons c rest)
    · simp only [dropLeadingBy, h, if_false, Bool.false_eq_true]
      exact List.suffix_refl _

theorem dropLeadingBy_of_head_false {p : Char → Bool} {l : List Char}
    (h : ∀ c t, l = c :: t → p c = false) : dropLeadingBy p l = l := by
  cases l with
  | nil => rfl
  | cons c t => simp [dropLeadingBy, h c t rfl]

theorem pyStripBy_idem (p : Char → Bool) (s : List Char) :
    pyStripBy p (pyStripBy p s) = pyStripBy p s := by
  unfold pyStripBy
  rcases dropLeadingBy_head_false p (dropLeadingBy p s).reverse with hB | ⟨c, t, hB, hc⟩
  · rw [hB]
    simp [dropLeadingBy]
  · rw [hB]
    have hBhead : ∀ c' t', (c :: t) = c' :: t' → p c' = false := by
      intro c' t' he
      cases he; exact hc
    -- the head of `(c :: t).reverse` is the last element of `c :: t`, which is
    -- the last element of `(dropLeadingBy p s).reverse`, i.e. the head of
    -- `dropLeadingBy p s`, which fails `p`.
    have hsuf : (c :: t) <:+ (dropLeadingBy p s).reverse := by
      rw [← hB]; exact dropLeadingBy_suffix p _
    have hlast : (c :: t).getLast? = (dropLeadingBy p s).reverse.getLast? := by
      rcases hsuf with ⟨d, hd⟩
      rw [← hd, List.getLast?_append]
      rw [List.getLast?_eq_getLast (c :: t) (by simp)]
      rfl
    have hlast2 : (dropLeadingBy p s).reverse.getLast? = (dropLeadingBy p s).head? := by
      exact List.getLast?_reverse _
    have hheadrev : (c :: t).reverse.head? = (dropLeadingBy p s).head? := by
      rw [List.head?_reverse, hlast, hlast2]
    have hdlb : dropLeadingBy p (c :: t).reverse = (c :: t).reverse := by
      apply dropLeadingBy_of_head_false
      intro c' t' he
      have h1 : (c :: t).reverse.head? = some c' := by rw [he]; rfl
      rw [hheadrev] at h1
      rcases dropLeadingBy_head_false p s with h2 | ⟨c2, t2, h2, hc2⟩
      · rw [h2] at h1; simp at h1
      · rw [h2] at h1
        simp only [List.head?_cons, Option.some.injEq] at h1
        rw [← h1]; exact hc2
    rw [hdlb, List.reverse_reverse]
    have : dropLeadingBy p (c :: t) = c :: t := by
      apply dropLeadingBy_of_head_false; exact hBhead
    rw [this]

theorem pyStrip_idem (s : String) : pyStrip (pyStrip s) = pyStrip s := by
  unfold pyStrip
  rw [pyStripBy_idem]

theorem normalize_url_idem (u : String) :
    normalize_url (normalize_url u) = normalize_url u := pyStrip_idem u

/-! ## Supporting lemmas: insertion-ordered dicts -/

theorem alGet_mem {V : Type} {l : List (String × V)} {k : String} {v : V}
    (h : alGet l k = some v) : (k, v) ∈ l := by
  induction l with
  | nil => simp [alGet] at h
  | cons kv rest ih =>
    obtain ⟨k', v'⟩ := kv
    simp only [alGet] at h
    split at h
    · rename_i he
      cases h
      subst he
      exact List.mem_cons_self _ _
    · exact List.mem_cons_of_mem _ (ih h)

theorem alGet_alInsert_self {V : Type} (l : List (String × V)) (k : String) (v : V) :
    alGet (alInsert l k v) k = some v := by
  induction l with
  | nil => simp [alInsert, alGet]
  | cons kv rest ih =>
    obtain ⟨k', v'⟩ := kv
    by_cases h : k' = k
    · simp [alInsert, alGet, h]
    · simp [alInsert, alGet, h, ih]

theorem alGet_alInsert_ne {V : Type} (l : List (String × V)) (k k' : String) (v : V)
    (h : k ≠ k') : alGet (alInsert l k v) k' = alGet l k' := by
  induction l with
  | nil =>
    simp only [alInsert, alGet]
    rw [if_neg h]
  | cons kv rest ih =>
    obtain ⟨k₀, v₀⟩ := kv
    by_cases h0 : k₀ = k
    · subst h0
      simp only [alInsert, if_pos rfl, alGet]
      rw [if_neg h, if_neg h]
    · simp only [alInsert, h0, if_false, alGet, ih]

theorem mem_alInsert {V : Type} {l : List (String × V)} {k : String} {v : V} :
    ∀ kv ∈ alInsert l k v, kv = (k, v) ∨ kv ∈ l := by
  induction l with
  | nil => intro kv h; simp [alInsert] at h; exact Or.inl h
  | cons kv₀ rest ih =>
    obtain ⟨k₀, v₀⟩ := kv₀
    intro kv h
    simp only [alInsert] at h
    split at h
    · rename_i he
      rcases List.mem_cons.mp h with h1 | h1
      · subst he; exact Or.inl (by rw [h1])
      · exact Or.inr (List.mem_cons_of_mem _ h1)
    · rcases List.mem_cons.mp h with h1 | h1
      · exact Or.inr (by rw [h1]; exact List.mem_cons_self _ _)
      · rcases ih kv h1 with h2 | h2
        · exact Or.inl h2
        · exact Or.inr (List.mem_cons_of_mem _ h2)

theorem keys_alInsert {V : Type} (l : List (String × V)) (k : String) (v : V) :
    (alInsert l k v).map Prod.fst =
      if k ∈ l.map Prod.fst then l.map Prod.fst else l.map Prod.fst ++ [k] := by
  induction l with
  | nil => simp [alInsert]
  | cons kv rest ih =>
    obtain ⟨k₀, v₀⟩ := kv
    by_cases h : k₀ = k
    · subst h
      simp [alInsert]
    · simp only [alInsert, h, if_false, List.map_cons, ih]
      by_cases h2 : k ∈ rest.map Prod.fst
      · rw [if_pos h2, if_pos (List.mem_cons_of_mem _ h2)]
      · have hne : k ∉ (k₀ :: rest.map Prod.fst) := by
          intro hmem
          rcases List.mem_cons.mp hmem with he | he
          · exact h he.symm
          · exact h2 he
        rw [if_neg h2, if_neg hne]
        simp

theorem nodup_keys_alInsert {V : Type} {l : List (String × V)} (k : String) (v : V)
    (h : (l.map Prod.fst).Nodup) : ((alInsert l k v).map Prod.fst).Nodup := by
  rw [keys_alInsert]
  split
  · exact h
  · rename_i hk
    simp only [List.nodup_append, List.nodup_cons, List.nodup_nil]
    exact ⟨h, by simp, by intro a ha hb; simp at hb; subst hb; exact hk ha⟩

theorem alInsert_of_not_mem {V : Type} {l : List (String × V)} {k : String} (v : V)
    (h : k ∉ l.map Prod.fst) : alInsert l k v = l ++ [(k, v)] := by
  induction l with
  | nil => simp [alInsert]
  | cons kv rest ih =>
    obtain ⟨k₀, v₀⟩ := kv
    simp only [List.map_cons, List.mem_cons] at h
    push_neg at h
    simp only [alInsert, List.cons_append]
    rw [ih h.2, if_neg (fun he => h.1 he.symm)]

/-! ## Supporting lemmas: the sort, prune and merge loops -/

theorem insertByUrl_perm (e : DiscEntry) :
    ∀ l : List DiscEntry, List.Perm (insertByUrl e l) (e :: l)
  | [] => List.Perm.refl _
  | f :: rest => by
    simp only [insertByUrl]
    split
    · exact ((insertByUrl_perm e rest).cons f).trans (List.Perm.swap e f rest)
    · exact List.Perm.refl _

theorem sortByUrl_perm : ∀ l : List DiscEntry, List.Perm (sortByUrl l) l
  | [] => List.Perm.refl _
  | e :: rest => (insertByUrl_perm e (sortByUrl rest)).trans ((sortByUrl_perm rest).cons e)

theorem mem_sortByUrl {e : DiscEntry} {l : List DiscEntry} :
    e ∈ sortByUrl l ↔ e ∈ l := (sortByUrl_perm l).mem_iff

theorem foldl_pruneStep (cutoff : Int) :
    ∀ (l : List DiscEntry) (acc : List DiscEntry) (f : Bool),
      l.foldl (pruneStep cutoff) (acc, f) =
        (acc ++ l.filter (pruneKeep cutoff),
         f || l.any (fun e => !pruneKeep cutoff e))
  | [], acc, f => by simp
  | e :: rest, acc, f => by
    simp only [List.foldl_cons, List.filter_cons, List.any_cons]
    have hstep : pruneStep cutoff (acc, f) e =
        if pruneKeep cutoff e then (acc ++ [e], f) else (acc, true) := by
      unfold pruneStep pruneKeep
      cases hp : parseTs e.last_seen with
      | none => simp
      | some dt =>
        by_cases hge : dt ≥ cutoff
        · simp [hge]
        · simp [hge]
    rw [hstep]
    by_cases hk : pruneKeep cutoff e
    · rw [if_pos hk, foldl_pruneStep cutoff rest (acc ++ [e]) f]
      simp [hk]
    · rw [if_neg hk, foldl_pruneStep cutoff rest acc true]
      simp [Bool.not_eq_true] at hk
      simp [hk]

theorem mergeStep_flag_mono (m : List String) (s n : String)
    (st : List (String × DiscEntry) × Bool) (u : String) (h : st.2 = true) :
    (mergeStep m s n st u).2 = true := by
  unfold mergeStep
  split
  · exact h
  · split <;> rfl

theorem foldl_mergeStep_flag_mono (m : List String) (s n : String) :
    ∀ (us : List String) (st : List (String × DiscEntry) × Bool), st.2 = true →
      (us.foldl (mergeStep m s n) st).2 = true
  | [], _, h => h
  | u :: rest, st, h => by
    simp only [List.foldl_cons]
    exact foldl_mergeStep_flag_mono m s n rest _ (mergeStep_flag_mono m s n st u h)

theorem mergeStep_fires (m : List String) (s n : String)
    (st : List (String × DiscEntry) × Bool) (u : String)
    (h : m.contains u = false) : (mergeStep m s n st u).2 = true := by
  unfold mergeStep
  rw [if_neg (by rw [h]; simp)]
  split <;> rfl

theorem foldl_mergeStep_fires (m : List String) (s n : String) :
    ∀ (us : List String) (st : List (String × DiscEntry) × Bool) (u : String),
      u ∈ us → m.contains u = false →
      (us.foldl (mergeStep m s n) st).2 = true
  | [], _, _, hu, _ => by simp at hu
  | u₀ :: rest, st, u, hu, hm => by
    simp only [List.foldl_cons]
    rcases List.mem_cons.mp hu with he | he
    · subst he
      exact foldl_mergeStep_flag_mono m s n rest _ (mergeStep_fires m s n st u hm)
    · exact foldl_mergeStep_fires m s n rest _ u he hm

theorem mem_collectIncoming :
    ∀ (seen links : List String) (u : String), u ∈ collectIncoming seen links →
      normalize_url u = u ∧ u ≠ ""
  | _, [], u, hu => by simp [collectIncoming] at hu
  | seen, raw :: rest, u, hu => by
    simp only [collectIncoming] at hu
    split at hu
    · exact mem_collectIncoming seen rest u hu
    · rename_i hcond
      rcases List.mem_cons.mp hu with he | he
      · subst he
        constructor
        · exact normalize_url_idem raw
        · intro h0
          rw [h0] at hcond
          simp at hcond
      · exact mem_collectIncoming _ rest u he

/-- The fold of `mergeStep` only ever rewrites an existing slot's value
(bumping `last_seen` to `now` and possibly filling `source`), keeping its
URL; tracking a key through the fold. -/
theorem foldl_mergeStep_alGet (m : List String) (s n : String) :
    ∀ (us : List String) (st : List (String × DiscEntry) × Bool) (k : String)
      (e : DiscEntry), alGet st.1 k = some e →
      ∃ e', alGet (us.foldl (mergeStep m s n) st).1 k = some e' ∧
        e'.url = e.url ∧ (e' = e ∨ e'.last_seen = n)
  | [], st, k, e, h => ⟨e, h, rfl, Or.inl rfl⟩
  | u :: rest, st, k, e, h => by
    simp only [List.foldl_cons]
    by_cases hm : m.contains u
    · rw [show mergeStep m s n st u = st by unfold mergeStep; rw [if_pos hm]]
      exact foldl_mergeStep_alGet m s n rest st k e h
    · by_cases hk : k = u
      · subst hk
        have hst : (mergeStep m s n st k).1 =
            alInsert st.1 k { e with
              last_seen := n,
              source := if s ≠ "" && e.source = "" then s else e.source } := by
          unfold mergeStep
          rw [if_neg hm, h]
        obtain ⟨e'', h1, h2, h3⟩ := foldl_mergeStep_alGet m s n rest (mergeStep m s n st k)
          k _ (by rw [hst]; exact alGet_alInsert_self _ _ _)
        refine ⟨e'', h1, h2, Or.inr ?_⟩
        rcases h3 with h3 | h3
        · rw [h3]
        · exact h3
      · have hst : alGet (mergeStep m s n st u).1 k = some e := by
          unfold mergeStep
          rw [if_neg hm]
          cases hg : alGet st.1 u with
          | some e₀ => simpa [alGet_alInsert_ne _ u k _ (fun he => hk he.symm)] using h
          | none => simpa [alGet_alInsert_ne _ u k _ (fun he => hk he.symm)] using h
        exact foldl_mergeStep_alGet m s n rest _ k e hst

theorem mergeStep_preserves_IdxOk (m : List String) (s n : String)
    (st : List (String × DiscEntry) × Bool) (u : String)
    (hu1 : normalize_url u = u) (hu2 : u ≠ "")
    (h : IdxOk m st.1) : IdxOk m (mergeStep m s n st u).1 := by
  unfold mergeStep
  by_cases hm : m.contains u
  · rw [if_pos hm]
    exact h
  · rw [if_neg hm]
    have hmf : m.contains u = false := by
      cases hc : m.contains u
      · rfl
      · exact absurd hc hm
    cases hg : alGet st.1 u with
    | some e =>
      simp only
      constructor
      · intro kv hkv
        rcases mem_alInsert kv hkv with he | he
        · obtain ⟨h1, h2, h3, h4⟩ := h.1 (u, e) (alGet_mem hg)
          subst he
          exact ⟨h1, h2, h3, h4⟩
        · exact h.1 kv he
      · exact nodup_keys_alInsert u _ h.2
    | none =>
      simp only
      constructor
      · intro kv hkv
        rcases mem_alInsert kv hkv with he | he
        · subst he
          exact ⟨rfl, hu1, hu2, hmf⟩
        · exact h.1 kv he
      · exact nodup_keys_alInsert u _ h.2

theorem foldl_mergeStep_IdxOk (m : List String) (s n : String) :
    ∀ (us : List String) (st : List (String × DiscEntry) × Bool),
      (∀ u ∈ us, normalize_url u = u ∧ u ≠ "") → IdxOk m st.1 →
      IdxOk m (us.foldl (mergeStep m s n) st).1
  | [], _, _, h => h
  | u :: rest, st, hus, h => by
    simp only [List.foldl_cons]
    have hu := hus u (List.mem_cons_self _ _)
    exact foldl_mergeStep_IdxOk m s n rest _
      (fun v hv => hus v (List.mem_cons_of_mem _ hv))
      (mergeStep_preserves_IdxOk m s n st u hu.1 hu.2 h)

theorem foldl_buildIdxStep_eq :
    ∀ (l : List DiscEntry) (acc : List (String × DiscEntry)),
      (∀ e ∈ l, normalize_url e.url = e.url ∧ e.url ≠ "") →
      (∀ e ∈ l, e.url ∉ acc.map Prod.fst) →
      ((l.map (fun e => e.url)).Nodup) →
      l.foldl buildIdxStep acc = acc ++ l.map (fun e => (e.url, e))
  | [], acc, _, _, _ => by simp
  | e :: rest, acc, hl, hdisj, hnodup => by
    simp only [List.foldl_cons, List.map_cons]
    obtain ⟨he1, he2⟩ := hl e (List.mem_cons_self _ _)
    have hstep : buildIdxStep acc e = acc ++ [(e.url, e)] := by
      unfold buildIdxStep
      simp only [he1]
      rw [if_neg he2, alInsert_of_not_mem _ (hdisj e (List.mem_cons_self _ _))]
    rw [hstep]
    have hn : e.url ∉ rest.map (fun x => x.url) ∧ (rest.map (fun x => x.url)).Nodup := by
      rw [List.map_cons, List.nodup_cons] at hnodup
      exact hnodup
    rw [foldl_buildIdxStep_eq rest (acc ++ [(e.url, e)])
      (fun f hf => hl f (List.mem_cons_of_mem _ hf))
      (by
        intro f hf
        simp only [List.map_append, List.mem_append, List.map_cons, List.map_nil]
        push_neg
        constructor
        · exact hdisj f (List.mem_cons_of_mem _ hf)
        · intro hmem
          simp only [List.mem_singleton] at hmem
          exact hn.1 (hmem ▸ List.mem_map_of_mem (fun e => e.url) hf))
      hn.2]
    simp

theorem buildIdx_eq (l : List DiscEntry)
    (hl : ∀ e ∈ l, normalize_url e.url = e.url ∧ e.url ≠ "")
    (hnodup : (l.map (fun e => e.url)).Nodup) :
    buildIdx l = l.map (fun e => (e.url, e)) := by
  unfold buildIdx
  rw [foldl_buildIdxStep_eq l [] hl (by simp) hnodup]
  simp

theorem alGet_map_self :
    ∀ (l : List DiscEntry), ((l.map (fun e => e.url)).Nodup) →
      ∀ e ∈ l, alGet (l.map (fun f => (f.url, f))) e.url = some e
  | [], _, e, he => by simp at he
  | f :: rest, hnodup, e, he => by
    have hn : f.url ∉ rest.map (fun x => x.url) ∧ (rest.map (fun x => x.url)).Nodup := by
      rw [List.map_cons, List.nodup_cons] at hnodup
      exact hnodup
    rcases List.mem_cons.mp he with h | h
    · subst h
      simp [alGet]
    · have hne : f.url ≠ e.url := by
        intro hcontra
        exact hn.1 (hcontra ▸ List.mem_map_of_mem (fun x => x.url) h)
      simp only [List.map_cons, alGet, hne, if_false]
      exact alGet_map_self rest hn.2 e h

theorem listLtChars_trans :
    ∀ (a b c : List Char), listLtChars a b = true → listLtChars b c = true →
      listLtChars a c = true
  | [], [], _, hab, _ => by simp [listLtChars] at hab
  | [], _ :: _, [], _, hbc => by simp [listLtChars] at hbc
  | [], _ :: _, _ :: _, _, _ => rfl
  | _ :: _, [], _, hab, _ => by simp [listLtChars] at hab
  | _ :: _, _ :: _, [], _, hbc => by simp [listLtChars] at hbc
  | a :: as, b :: bs, c :: cs, hab, hbc => by
    simp only [listLtChars] at hab hbc ⊢
    by_cases h1 : a.toNat < b.toNat <;> by_cases h2 : b.toNat < c.toNat
    · rw [if_pos (by omega)]
    · rw [if_neg h2] at hbc
      by_cases h3 : c.toNat < b.toNat
      · rw [if_pos h3] at hbc
        exact absurd hbc (by simp)
      · rw [if_pos (by omega)]
    · rw [if_neg h1] at hab
      by_cases h3 : b.toNat < a.toNat
      · rw [if_pos h3] at hab
        exact absurd hab (by simp)
      · rw [if_pos (by omega)]
    · rw [if_neg h1] at hab
      rw [if_neg h2] at hbc
      by_cases h3 : b.toNat < a.toNat
      · rw [if_pos h3] at hab
        exact absurd hab (by simp)
      · by_cases h4 : c.toNat < b.toNat
        · rw [if_pos h4] at hbc
          exact absurd hbc (by simp)
        · rw [if_neg h3] at hab
          rw [if_neg h4] at hbc
          rw [if_neg (by omega), if_neg (by omega)]
          exact listLtChars_trans as bs cs hab hbc

theorem pyStrLt_trans {a b c : String} (hab : pyStrLt a b = true)
    (hbc : pyStrLt b c = true) : pyStrLt a c = true :=
  listLtChars_trans a.data b.data c.data hab hbc

theorem listLtChars_irrefl : ∀ a : List Char, listLtChars a a = false
  | [] => rfl
  | c :: rest => by
    simp only [listLtChars, lt_irrefl, if_false]
    exact listLtChars_irrefl rest

theorem pyStrLt_irrefl (a : String) : pyStrLt a a = false :=
  listLtChars_irrefl a.data

theorem listLtChars_nil_right : ∀ a : List Char, listLtChars a [] = false
  | [] => rfl
  | _ :: _ => rfl

theorem foldl_bestStep_inv :
    ∀ (obs : List (String × Option Obs)) (seen : List String)
      (b : String × String × String), BestOk seen b →
      BestOk (seen ++ nonemptyIsos obs) (obs.foldl bestStep b)
  | [], seen, b, h => by simpa [nonemptyIsos]
  | p :: rest, seen, b, h => by
    simp only [List.foldl_cons]
    match hp : p.2 with
    | none =>
      have h1 : bestStep b p = b := by unfold bestStep; rw [hp]
      have h2 : nonemptyIsos (p :: rest) = nonemptyIsos rest := by
        simp [nonemptyIsos, List.filterMap_cons, hp]
      rw [h1, h2]
      exact foldl_bestStep_inv rest seen b h
    | some o =>
      by_cases hiso : o.last_update_iso = ""
      · have h1 : bestStep b p = b := by
          unfold bestStep; rw [hp]; simp [hiso]
        have h2 : nonemptyIsos (p :: rest) = nonemptyIsos rest := by
          simp [nonemptyIsos, List.filterMap_cons, hp, hiso]
        rw [h1, h2]
        exact foldl_bestStep_inv rest seen b h
      · have h2 : nonemptyIsos (p :: rest) = o.last_update_iso :: nonemptyIsos rest := by
          simp [nonemptyIsos, List.filterMap_cons, hp, hiso]
        rw [h2, show seen ++ o.last_update_iso :: nonemptyIsos rest
          = (seen ++ [o.last_update_iso]) ++ nonemptyIsos rest by simp]
        by_cases htake : b.2.2 = "" ∨ pyStrLt b.2.2 o.last_update_iso = true
        · have h1 : bestStep b p = (p.1, o.version, o.last_update_iso) := by
            unfold bestStep
            rw [hp]
            simp only [hiso, if_false]
            rw [if_pos (by rcases htake with ht | ht <;> simp [ht])]
          rw [h1]
          apply foldl_bestStep_inv rest (seen ++ [o.last_update_iso])
          refine Or.inr ⟨by simp, ?_⟩
          intro x hx
          rcases List.mem_append.mp hx with hx | hx
          · rcases h with ⟨hb, hs⟩ | ⟨hb, hs⟩
            · rw [hs] at hx; simp at hx
            · rcases htake with ht | ht
              · -- the best so far is "" yet is a member of seen: then every
                -- seen timestamp is itself "", and nothing sorts below "".
                rw [ht] at hs
                have hx0 : x.data = [] := by
                  have hf : listLtChars [] x.data = false := hs x hx
                  cases hxd : x.data with
                  | nil => rfl
                  | cons c t => rw [hxd] at hf; simp [listLtChars] at hf
                show listLtChars _ x.data = false
                rw [hx0]
                exact listLtChars_nil_right _
              · cases hlt : pyStrLt o.last_update_iso x with
                | false => rfl
                | true => exact absurd (pyStrLt_trans ht hlt) (by simp [hs x hx])
          · simp only [List.mem_singleton] at hx
            subst hx
            exact pyStrLt_irrefl _
        · push_neg at htake
          have h1 : bestStep b p = b := by
            unfold bestStep
            rw [hp]
            simp only [hiso, if_false]
            rw [if_neg (by simp [htake.1, htake.2])]
          rw [h1]
          apply foldl_bestStep_inv rest (seen ++ [o.last_update_iso])
          rcases h with ⟨hb, hs⟩ | ⟨hb, hs⟩
          · exact absurd hb htake.1
          · refine Or.inr ⟨List.mem_append.mpr (Or.inl hb), ?_⟩
            intro x hx
            rcases List.mem_append.mp hx with hx | hx
            · exact hs x hx
            · simp only [List.mem_singleton] at hx
              subst hx
              exact Bool.eq_false_iff.mpr htake.2

/-! ## Claim theorems -/

/-- C7: for every timestamp string and every value of now, `classify_recency`
returns Old when the timestamp is unparseable; otherwise, with `age_days` the
whole number of days (floor) between now and the timestamp, it returns
Recent when `age_days ≤ 21`, Abandoned when `age_days ≥ 365`, and Old in the
band between; being a total function of its inputs, it never throws. -/
theorem claim_C7 (s : String) (now : Int) :
    (parseTs s = none → classify_recency s now = "❌ Old") ∧
    (∀ t, parseTs s = some t →
      (Int.fdiv (now - t) 86400 ≤ 21 → classify_recency s now = "✅ Recent") ∧
      (Int.fdiv (now - t) 86400 ≥ 365 → classify_recency s now = "⚠️ Abandoned") ∧
      (21 < Int.fdiv (now - t) 86400 → Int.fdiv (now - t) 86400 < 365 →
        classify_recency s now = "❌ Old")) := by
  constructor
  · intro h
    simp [classify_recency, h]
  · intro t ht
    simp only [classify_recency, ht, RECENT_DAYS, ABANDONED_DAYS]
    refine ⟨fun h1 => ?_, fun h2 => ?_, fun h3 h4 => ?_⟩
    · rw [if_pos h1]
    · rw [if_neg (by omega), if_pos h2]
    · rw [if_neg (by omega), if_neg (by omega)]

/-- C7 witness: concrete instances of the three bands. -/
theorem claim_C7_witness :
    classify_recency "2024-06-01T00:00:00Z" 1717200000 = "✅ Recent" ∧
    classify_recency "garbage" 0 = "❌ Old" := by
  refine ⟨?_, ?_⟩
  · exact ((claim_C7 "2024-06-01T00:00:00Z" 1717200000).2 1717200000 (by decide)).1 (by decide)
  · exact (claim_C7 "garbage" 0).1 (by decide)

/-- C10: any parseable timestamp strictly in the future of now classifies as
Recent, because its whole-day age is negative, hence at most 21. -/
theorem claim_C10 (s : String) (now t : Int) (hp : parseTs s = some t)
    (hf : now < t) : classify_recency s now = "✅ Recent" := by
  have hc : Int.fdiv (now - t) 86400 ≤ RECENT_DAYS := by
    rw [Int.fdiv_eq_ediv _ (by omega)]
    unfold RECENT_DAYS
    omega
  simp [classify_recency, hp, hc]

/-- C10 witness: a timestamp one second in the future of now is Recent. -/
theorem claim_C10_witness : classify_recency "2024-06-01T00:00:00Z" 1717199999 = "✅ Recent" :=
  claim_C10 "2024-06-01T00:00:00Z" 1717199999 1717200000 (by decide) (by decide)

/-- C1: evaluation of `scrape_all` at the failing input.  The success path of
the source never computes a change status at all: it reaches
`GameInfo(..., change_status=change_status)` with the local `change_status`
unbound (it is only ever assigned in the error branch), so a run over a
single successfully-fetched item raises `UnboundLocalError` instead of
emitting a result with status New/Updated/Unchanged. -/
theorem claim_C1 :
    scrape_all c1fetch 1717200000 [{ url := "https://x.com/a" }] =
      ([], Except.error "UnboundLocalError: local variable change_status referenced before assignment") := rfl

/-- C2: evaluation of `scrape_all` at the failing input.  In the error branch
the source assigns `change_status = "ERROR"` and then immediately reads the
never-assigned name `prev_row` (`if prev_row:`), raising `NameError`: no
result row is produced at all (and no storage call is issued — the empty
trace confirms `discovered_links` is untouched), instead of the claimed
Error-status row with fallback from the previous observation. -/
theorem claim_C2 :
    scrape_all c2fetch 1717200000 [{ url := "https://x.com/a", folder_path := some "/lib/g" }] =
      ([], Except.error "NameError: name prev_row is not defined") := rfl

/-- C3 amended: a second identical merge is not write-free — whenever the
(normalized, de-duplicated) incoming list contains a URL outside
`manual_links`, the call writes, stamping `updated_at` with the call's
timestamp. -/
theorem claim_C3_amended (data : UrlRecord) (links : List String)
    (source now_iso : String) (nowSec : Int) (u : String)
    (hu : u ∈ collectIncoming [] links)
    (hm : (manualSet data).contains u = false) :
    ∃ r, merge_discovered_links data links source now_iso nowSec = some r ∧
      r.updated_at = now_iso := by
  unfold merge_discovered_links
  have hflag : ((collectIncoming [] links).foldl
      (mergeStep (manualSet data) source now_iso) (buildIdx data.discovered, false)).2 = true :=
    foldl_mergeStep_fires _ _ _ _ _ u hu hm
  simp only [foldl_pruneStep, hflag, Bool.true_or, if_true]
  exact ⟨_, rfl, rfl⟩

/-- C3 counterexample: merging the identical link list a second time, one
second later, performs a second write and changes `updated_at` (the
`changed` flag is set by the unconditional `last_seen` bump, so the claimed
no-op never happens for a non-manual incoming URL). -/
theorem claim_C3_counterexample :
    merge_discovered_links c3rec ["https://a.com/x"] "s"
        "2024-06-01T00:00:00Z" 1717200000 = some c3rec1 ∧
    merge_discovered_links c3rec1 ["https://a.com/x"] "s"
        "2024-06-01T00:00:01Z" 1717200001 = some c3rec2 ∧
    c3rec2.updated_at ≠ c3rec1.updated_at ∧ c3rec2 ≠ c3rec1 := by
  refine ⟨by rfl, by rfl, by decide, by decide⟩

/-- C3 witness: the amended statement at the counterexample's second call. -/
theorem claim_C3_witness :
    ∃ r, merge_discovered_links c3rec1 ["https://a.com/x"] "s"
        "2024-06-01T00:00:01Z" 1717200001 = some r ∧
      r.updated_at = "2024-06-01T00:00:01Z" :=
  claim_C3_amended c3rec1 ["https://a.com/x"] "s" "2024-06-01T00:00:01Z" 1717200001
    "https://a.com/x" (by decide) (by decide)

theorem mem_nonemptyIsos_ne {obs : List (String × Option Obs)} {x : String}
    (h : x ∈ nonemptyIsos obs) : x ≠ "" := by
  unfold nonemptyIsos at h
  rcases List.mem_filterMap.mp h with ⟨p, _, hp⟩
  match hq : p.2 with
  | none => rw [hq] at hp; simp at hp
  | some o =>
    rw [hq] at hp
    by_cases ho : o.last_update_iso = ""
    · simp [ho] at hp
    · simp only [ho, if_false, Option.some.injEq] at hp
      rw [← hp]
      exact ho

/-- C4 counterexample: overwriting the only non-empty observation slot with
an empty timestamp leaves NO slot with a non-empty timestamp, yet the write
keeps the stale `latest` dict untouched — `latest` is neither absent nor
empty, contradicting the claim's second clause. -/
theorem claim_C4_counterexample :
    nonemptyIsos (update_observations_latest c4rec "A" "" "" "T2").observations = [] ∧
    (update_observations_latest c4rec "A" "" "" "T2").latest =
      some ⟨"A", "1.0", "2024-01-01T00:00:00Z", "C"⟩ ∧
    (update_observations_latest c4rec "A" "" "" "T2").latest ≠ none ∧
    (update_observations_latest c4rec "A" "" "" "T2").latest ≠ some Latest.empty := by
  refine ⟨by decide, by decide, by decide, by decide⟩

/-- C4 amended: after every `update_observations_latest` write, when at least
one observation slot has a non-empty timestamp, `latest` holds a maximal
such timestamp (no slot's timestamp is strictly greater under Python string
comparison) with `computed_at` refreshed; when no slot has one, `latest` is
left as the prior dict when one existed (possibly stale) and is set to the
empty dict only when it was absent or malformed. -/
theorem claim_C4_amended (data : UrlRecord)
    (source version last_update_iso now_iso : String) :
    (nonemptyIsos (update_observations_latest data source version
        last_update_iso now_iso).observations = [] →
      (update_observations_latest data source version last_update_iso now_iso).latest =
        match data.latest with
        | some l => some l
        | none => some Latest.empty) ∧
    (nonemptyIsos (update_observations_latest data source version
        last_update_iso now_iso).observations ≠ [] →
      ∃ l, (update_observations_latest data source version last_update_iso now_iso).latest
          = some l ∧
        l.last_update_iso ∈ nonemptyIsos (update_observations_latest data source version
          last_update_iso now_iso).observations ∧
        l.computed_at = now_iso ∧
        ∀ x ∈ nonemptyIsos (update_observations_latest data source version
          last_update_iso now_iso).observations, pyStrLt l.last_update_iso x = false) := by
  have hobs : (update_observations_latest data source version last_update_iso now_iso).observations
      = alInsert data.observations source (some ⟨version, last_update_iso⟩) := rfl
  have hinv := foldl_bestStep_inv
    (alInsert data.observations source (some ⟨version, last_update_iso⟩)) [] ("", "", "")
    (Or.inl ⟨rfl, rfl⟩)
  simp only [List.nil_append] at hinv
  constructor
  · intro h0
    rw [hobs] at h0
    rcases hinv with ⟨hb, _⟩ | ⟨hmem, _⟩
    · show (if _ ≠ "" then _ else _) = _
      rw [if_neg (by rw [hb]; simp)]
    · rw [h0] at hmem
      simp at hmem
  · intro h0
    rw [hobs] at h0
    rcases hinv with ⟨_, hs⟩ | ⟨hmem, hmax⟩
    · exact absurd hs h0
    · have hne : (((alInsert data.observations source
          (some ⟨version, last_update_iso⟩)).foldl bestStep ("", "", ""))).2.2 ≠ "" :=
        mem_nonemptyIsos_ne hmem
      refine ⟨⟨(List.foldl bestStep ("", "", "")
          (alInsert data.observations source (some ⟨version, last_update_iso⟩))).1,
        (List.foldl bestStep ("", "", "")
          (alInsert data.observations source (some ⟨version, last_update_iso⟩))).2.1,
        (List.foldl bestStep ("", "", "")
          (alInsert data.observations source (some ⟨version, last_update_iso⟩))).2.2,
        now_iso⟩, ?_, ?_, rfl, ?_⟩
      · show (if _ ≠ "" then _ else _) = _
        rw [if_pos hne]
      · rw [hobs]; exact hmem
      · rw [hobs]; exact hmax

/-- C4 witness: the amended statement at the spec's own example — slots A and
B, where B's timestamp is the maximum. -/
theorem claim_C4_witness :
    ∃ l, (update_observations_latest c4wrec "B" "2" "2024-06-01T00:00:00Z" "T").latest
        = some l ∧
      l.last_update_iso ∈ nonemptyIsos (update_observations_latest c4wrec "B" "2"
        "2024-06-01T00:00:00Z" "T").observations ∧
      l.computed_at = "T" ∧
      ∀ x ∈ nonemptyIsos (update_observations_latest c4wrec "B" "2"
        "2024-06-01T00:00:00Z" "T").observations, pyStrLt l.last_update_iso x = false :=
  (claim_C4_amended c4wrec "B" "2" "2024-06-01T00:00:00Z" "T").2 (by decide)

/-- C6: after any `merge_discovered_links` call that writes (on a record
whose ledger URLs are normalized, non-empty and duplicate-free, and whose
call clock is consistent — `now_iso` does not itself parse to before the
cutoff), (i) no entry of the written ledger has a parseable `last_seen`
older than the retention window `nowSec - DISCOVERED_PRUNE_DAYS` days, so
every such stale entry is absent; and (ii) every prior entry whose
`last_seen` does not parse is still present (fail-safe keep). -/
theorem claim_C6 (data : UrlRecord) (links : List String) (source now_iso : String)
    (nowSec : Int) (r : UrlRecord)
    (hwf1 : ∀ e ∈ data.discovered, normalize_url e.url = e.url ∧ e.url ≠ "")
    (hwf2 : (data.discovered.map (fun e => e.url)).Nodup)
    (hnow : ∀ t, parseTs now_iso = some t → nowSec - DISCOVERED_PRUNE_DAYS * 86400 ≤ t)
    (hw : merge_discovered_links data links source now_iso nowSec = some r) :
    (∀ e ∈ r.discovered, ∀ t, parseTs e.last_seen = some t →
      nowSec - DISCOVERED_PRUNE_DAYS * 86400 ≤ t) ∧
    (∀ e ∈ data.discovered, parseTs e.last_seen = none →
      ∃ e' ∈ r.discovered, e'.url = e.url) := by
  unfold merge_discovered_links at hw
  simp only [foldl_pruneStep, List.nil_append] at hw
  split at hw
  case isFalse => exact absurd hw (by simp)
  case isTrue hflag =>
  rw [Option.some.injEq] at hw
  have hdisc : r.discovered = sortByUrl
      ((((collectIncoming [] links).foldl (mergeStep (manualSet data) source now_iso)
        (buildIdx data.discovered, false)).1.map Prod.snd).filter
        (pruneKeep (nowSec - DISCOVERED_PRUNE_DAYS * 86400))) := by
    rw [← hw]
  constructor
  · intro e he t hp
    rw [hdisc] at he
    have hf := (List.mem_filter.mp (mem_sortByUrl.mp he)).2
    unfold pruneKeep at hf
    rw [hp] at hf
    exact of_decide_eq_true hf
  · intro e he hp
    have hidx : alGet (buildIdx data.discovered) e.url = some e := by
      rw [buildIdx_eq data.discovered hwf1 hwf2]
      exact alGet_map_self data.discovered hwf2 e he
    obtain ⟨e', hg, hurl, hcase⟩ := foldl_mergeStep_alGet (manualSet data) source now_iso
      (collectIncoming [] links) (buildIdx data.discovered, false) e.url e hidx
    have hkeep : pruneKeep (nowSec - DISCOVERED_PRUNE_DAYS * 86400) e' = true := by
      unfold pruneKeep
      rcases hcase with he' | hl
      · subst he'
        rw [hp]
      · cases hpn : parseTs e'.last_seen with
        | none => rfl
        | some t =>
          rw [hl] at hpn
          exact decide_eq_true (hnow t hpn)
    refine ⟨e', ?_, hurl⟩
    rw [hdisc]
    exact mem_sortByUrl.mpr (List.mem_filter.mpr
      ⟨List.mem_map_of_mem Prod.snd (alGet_mem hg), hkeep⟩)

/-- C6 witness: the theorem applied to a concrete writing merge. -/
theorem claim_C6_witness :
    (∀ e ∈ c6out.discovered, ∀ t, parseTs e.last_seen = some t →
      1717200000 - DISCOVERED_PRUNE_DAYS * 86400 ≤ t) ∧
    (∀ e ∈ c6rec.discovered, parseTs e.last_seen = none →
      ∃ e' ∈ c6out.discovered, e'.url = e.url) :=
  claim_C6 c6rec [] "" "2024-06-01T00:00:00Z" 1717200000 c6out
    (by decide) (by decide)
    (by
      intro t ht
      rw [show parseTs "2024-06-01T00:00:00Z" = some 1717200000 from by decide] at ht
      rw [Option.some.injEq] at ht
      subst ht
      decide)
    (by decide)

theorem merge_preserves_RecordOk {data r : UrlRecord} {links : List String}
    {source now_iso : String} {nowSec : Int} (hok : RecordOk data)
    (hw : merge_discovered_links data links source now_iso nowSec = some r) :
    RecordOk r := by
  unfold merge_discovered_links at hw
  simp only [foldl_pruneStep, List.nil_append] at hw
  split at hw
  case isFalse => exact absurd hw (by simp)
  case isTrue hflag =>
  rw [Option.some.injEq] at hw
  have hmanset : manualSet r = manualSet data := by unfold manualSet; rw [← hw]
  have hdisc : r.discovered = sortByUrl
      ((((collectIncoming [] links).foldl (mergeStep (manualSet data) source now_iso)
        (buildIdx data.discovered, false)).1.map Prod.snd).filter
        (pruneKeep (nowSec - DISCOVERED_PRUNE_DAYS * 86400))) := by
    rw [← hw]
  have hidx0 : IdxOk (manualSet data) (buildIdx data.discovered) := by
    rw [buildIdx_eq data.discovered (fun e he => ⟨(hok.1 e he).1, (hok.1 e he).2.1⟩) hok.2]
    constructor
    · intro kv hkv
      rcases List.mem_map.mp hkv with ⟨e, he, hkv'⟩
      obtain ⟨h1, h2, h3⟩ := hok.1 e he
      rw [← hkv']
      exact ⟨rfl, h1, h2, h3⟩
    · rw [List.map_map]
      exact hok.2
  have hmerged : IdxOk (manualSet data)
      (((collectIncoming [] links).foldl (mergeStep (manualSet data) source now_iso)
        (buildIdx data.discovered, false)).1) :=
    foldl_mergeStep_IdxOk _ _ _ (collectIncoming [] links) _
      (fun u hu => mem_collectIncoming [] links u hu) hidx0
  constructor
  · intro e he
    rw [hdisc] at he
    have hf := (List.mem_filter.mp (mem_sortByUrl.mp he)).1
    rcases List.mem_map.mp hf with ⟨kv, hkv, hsnd⟩
    obtain ⟨_, h2, h3, h4⟩ := hmerged.1 kv hkv
    rw [hmanset, ← hsnd]
    exact ⟨h2, h3, h4⟩
  · rw [hdisc]
    apply ((sortByUrl_perm _).map (fun e : DiscEntry => e.url)).nodup_iff.mpr
    apply List.Nodup.sublist ((List.filter_sublist _).map (fun e : DiscEntry => e.url))
    rw [List.map_map]
    have hmc : List.map ((fun e : DiscEntry => e.url) ∘ Prod.snd)
        (((collectIncoming [] links).foldl (mergeStep (manualSet data) source now_iso)
          (buildIdx data.discovered, false)).1)
        = List.map Prod.fst
        (((collectIncoming [] links).foldl (mergeStep (manualSet data) source now_iso)
          (buildIdx data.discovered, false)).1) :=
      List.map_congr_left (fun kv hkv => ((hmerged.1 kv hkv).1).symm)
    rw [hmc]
    exact hmerged.2

theorem update_preserves_RecordOk {data : UrlRecord}
    (source version last_update_iso now_iso : String) (hok : RecordOk data) :
    RecordOk (update_observations_latest data source version last_update_iso now_iso) :=
  hok

theorem bootstrap_RecordOk (raw status now : String) :
    RecordOk (_bootstrap_from_txt raw status now) := by
  constructor
  · intro e he
    simp [_bootstrap_from_txt] at he
  · simp [_bootstrap_from_txt]

theorem reachable_RecordOk {r : UrlRecord} (h : Reachable r) : RecordOk r := by
  induction h with
  | bootstrap raw status now => exact bootstrap_RecordOk raw status now
  | merge links source now_iso nowSec _ hw ih => exact merge_preserves_RecordOk ih hw
  | update source version last_update_iso now_iso _ ih =>
    exact update_preserves_RecordOk source version last_update_iso now_iso ih

/-- C5: in every record state reachable through the store's operations, the
discovered ledger never contains a URL whose normalization lies in the
manual set — merges filter manual URLs out of the incoming list, and no
operation ever introduces one. -/
theorem claim_C5 (r : UrlRecord) (h : Reachable r) :
    ∀ e ∈ r.discovered, (manualSet r).contains (normalize_url e.url) = false := by
  intro e he
  obtain ⟨h1, _⟩ := reachable_RecordOk h
  obtain ⟨hn, _, hc⟩ := h1 e he
  rw [hn]
  exact hc

/-- C5 witness: the invariant at a concrete reachable state, instantiated at
the single ledger entry of that state. -/
theorem claim_C5_witness :
    (manualSet c5out).contains (normalize_url "https://ext.com/y") = false :=
  claim_C5 c5out
    (Reachable.merge ["https://ext.com/y", "https://m.com/x"] "s" "2024-06-01T00:00:00Z"
      1717200000 (Reachable.bootstrap "https://m.com/x" "active" "T") (by decide))
    ⟨"https://ext.com/y", "s", "2024-06-01T00:00:00Z", "2024-06-01T00:00:00Z"⟩
    (by decide)

theorem bootstrapLinksLoop_eq :
    ∀ lines : List String, bootstrapLinksLoop lines = lines.filterMap keptUrl
  | [] => rfl
  | line :: rest => by
    rw [List.filterMap_cons]
    cases hk : keptUrl line with
    | none =>
      simp only [bootstrapLinksLoop]
      unfold keptUrl at hk
      split_ifs at hk with h1 h2
      · rw [if_pos h1]
        exact bootstrapLinksLoop_eq rest
      · rw [if_neg h1, if_neg h2]
        exact bootstrapLinksLoop_eq rest
    | some u =>
      simp only [bootstrapLinksLoop]
      unfold keptUrl at hk
      split_ifs at hk with h1 h2
      rw [if_neg h1, if_pos h2, bootstrapLinksLoop_eq rest]
      rw [Option.some.injEq] at hk
      rw [hk]

theorem dedupKeepFirst_eq :
    ∀ (seen l : List String),
      dedupKeepFirst seen l = (firstOccDedup l).filter (fun v => !seen.contains v)
  | _, [] => rfl
  | seen, u :: rest => by
    simp only [dedupKeepFirst, firstOccDedup, List.filter_cons]
    by_cases hc : seen.contains u
    · rw [if_pos hc, if_neg (by rw [hc]; simp)]
      rw [dedupKeepFirst_eq seen rest, List.filter_filter]
      apply List.filter_congr
      intro v _
      by_cases hv : v = u
      · subst hv
        rw [hc]
        simp
      · simp [hv]
    · have hcf : seen.contains u = false := by
        cases h : seen.contains u
        · rfl
        · exact absurd h hc
      rw [if_neg (by rw [hcf]; simp), if_pos (by rw [hcf]; simp)]
      rw [dedupKeepFirst_eq (u :: seen) rest, List.filter_filter]
      congr 1
      apply List.filter_congr
      intro v _
      by_cases hv : v = u
      · subst hv
        simp [List.contains_cons]
      · simp [List.contains_cons, hv, hcf]

/-- C9: bootstrapping from a legacy plain-URL file ignores blank and
`#`-prefixed lines, keeps only http(s) URLs, de-duplicates preserving
first-seen order into `manual_links`, derives the entry id from the first
kept link, leaves every other container empty, and the returned record is
the one persisted immediately; on the file `"https://x.com/a"` twice plus
`"not a url"`, `manual_links` is exactly `["https://x.com/a"]`. -/
theorem claim_C9 (raw status now : String) :
    ((_bootstrap_from_txt raw status now).manual.links
        = firstOccDedup ((pySplitlines raw).filterMap keptUrl)) ∧
    ((_bootstrap_from_txt raw status now).game_id
        = match (_bootstrap_from_txt raw status now).manual.links with
          | [] => ""
          | u :: _ => game_id_from_url u) ∧
    (_bootstrap_from_txt raw status now).discovered = [] ∧
    (_bootstrap_from_txt raw status now).observations = [] ∧
    (_bootstrap_from_txt raw status now).latest = some Latest.empty ∧
    (_bootstrap_from_txt raw status now).manual.source_file = "url.txt" ∧
    (_bootstrap_from_txt raw status now).status = status ∧
    (_bootstrap_from_txt raw status now).updated_at = now ∧
    (_bootstrap_from_txt "https://x.com/a\nhttps://x.com/a\nnot a url" "active" "T").manual.links
        = ["https://x.com/a"] := by
  have hlinks : (_bootstrap_from_txt raw status now).manual.links
      = firstOccDedup ((pySplitlines raw).filterMap keptUrl) := by
    show dedupKeepFirst [] (bootstrapLinksLoop (pySplitlines raw)) = _
    rw [bootstrapLinksLoop_eq, dedupKeepFirst_eq]
    apply List.filter_eq_self.mpr
    intro v _
    rfl
  refine ⟨hlinks, ?_, rfl, rfl, rfl, rfl, rfl, rfl, by decide⟩
  show (match dedupKeepFirst [] (bootstrapLinksLoop (pySplitlines raw)) with
    | [] => ""
    | u :: _ => game_id_from_url u) = _
  rfl

theorem bracketGroupsAux_some :
    ∀ (l : List Char) (buf : List Char),
      bracketGroupsAux (some buf) l =
        match takeToClose l with
        | some p => (buf.reverse ++ p.1) :: bracketGroupsAux none p.2
        | none => []
  | [], buf => rfl
  | c :: rest, buf => by
    by_cases hc : c = ']'
    · subst hc
      simp only [bracketGroupsAux, takeToClose, if_true, List.append_nil]
    · simp only [bracketGroupsAux, hc, if_false, takeToClose]
      rw [bracketGroupsAux_some rest (c :: buf)]
      cases htc : takeToClose rest with
      | none => rfl
      | some p => simp

theorem takeToClose_none_search :
    ∀ l : List Char, takeToClose l = none → searchBracketGroup l = none
  | [], _ => rfl
  | c :: rest, h => by
    have hc : ¬ c = ']' := by
      intro hc
      subst hc
      simp [takeToClose] at h
    have hrest : takeToClose rest = none := by
      simp only [takeToClose, hc, if_false] at h
      cases htc : takeToClose rest with
      | none => rfl
      | some p => rw [htc] at h; simp at h
    simp only [searchBracketGroup]
    split
    · rw [hrest]
      exact takeToClose_none_search rest hrest
    · exact takeToClose_none_search rest hrest

theorem takeToClose_nil_interior {l b : List Char}
    (h : takeToClose l = some ([], b)) : l = ']' :: b := by
  cases l with
  | nil => simp [takeToClose] at h
  | cons c rest =>
    simp only [takeToClose] at h
    split at h
    · rename_i hc
      rw [Option.some.injEq] at h
      cases h
      rw [hc]
    · cases htc : takeToClose rest with
      | none => rw [htc] at h; simp at h
      | some p => rw [htc] at h; simp at h

theorem searchBracketGroup_eq_aux :
    ∀ (n : Nat) (l : List Char), l.length ≤ n →
      searchBracketGroup l = ((bracketGroups l).filter (fun g => !g.isEmpty)).head? := by
  intro n
  induction n with
  | zero =>
    intro l h
    cases l with
    | nil => rfl
    | cons c t => simp at h
  | succ n ih =>
    intro l hlen
    cases l with
    | nil => rfl
    | cons c rest =>
      have hrestlen : rest.length ≤ n := by
        simp only [List.length_cons] at hlen
        omega
      by_cases hc : c = '['
      · subst hc
        simp only [searchBracketGroup, bracketGroups, bracketGroupsAux, if_pos rfl]
        rw [bracketGroupsAux_some rest []]
        cases htc : takeToClose rest with
        | none =>
          simp only [List.filter_nil, List.head?_nil]
          exact takeToClose_none_search rest htc
        | some p =>
          obtain ⟨interior, after⟩ := p
          by_cases hint : interior = []
          · subst hint
            simp only [if_true, List.reverse_nil, List.nil_append, List.filter_cons,
              List.isEmpty_nil, Bool.not_true, Bool.false_eq_true, if_false]
            have hrest := takeToClose_nil_interior htc
            rw [hrest]
            have hafterlen : after.length ≤ n := by
              have := takeToClose_length htc
              omega
            show searchBracketGroup (']' :: after) = _
            simp only [searchBracketGroup, if_neg (by decide : ¬ (']' = '['))]
            exact ih after hafterlen
          · simp only [if_neg hint, if_true, List.nil_append, List.filter_cons]
            rw [if_pos (by
              cases hi : interior with
              | nil => exact absurd hi hint
              | cons a t => simp)]
            rfl
      · simp only [searchBracketGroup, bracketGroups, bracketGroupsAux, hc, if_false]
        exact ih rest hrestlen

theorem searchBracketGroup_eq (l : List Char) :
    searchBracketGroup l = ((bracketGroups l).filter (fun g => !g.isEmpty)).head? :=
  searchBracketGroup_eq_aux l.length l (Nat.le_refl _)

/-- C8 counterexample: on `"A [] [v1]"` the first bracket-delimited group is
`[]`, whose trimmed interior is `""`, but the code's version (the first
group with non-empty interior) is `"v1"` — the claim's description of the
version disagrees with the code at this input. -/
theorem claim_C8_counterexample :
    (split_bracket_version "A [] [v1]").1 = "v1" ∧
    spec_version "A [] [v1]" = "" ∧
    ¬ (split_bracket_version "A [] [v1]").1 = spec_version "A [] [v1]" := by
  refine ⟨by decide, by decide, by decide⟩

/-- C8 amended: for every input string, the version is the trimmed interior
of the first bracket-delimited group with NON-EMPTY interior (empty `[]`
groups are skipped; empty string when there is none), and the clean title
is the input with every bracket-delimited group removed, whitespace runs
collapsed to single spaces, and leading/trailing separator punctuation and
whitespace trimmed. -/
theorem claim_C8_amended (title : String) :
    split_bracket_version title = (spec_version_nonempty title, spec_clean_title title) := by
  unfold split_bracket_version spec_version_nonempty spec_clean_title
  rw [searchBracketGroup_eq title.data]

end Scraper

